import Mathlib

/-!
Verification of the `pipetone` string-art solver (`src/main.rs`).

The solver core (`generate_threads`, `preprocess_img`'s circular mask, and the
`Line` ordering) is embedded shallowly.  Pixel coordinates are exact rationals:
the source computes positions and interpolated coordinates in `f32`/`f64`; the
embedding performs the same formulas in exact arithmetic and takes the pin
layout (computed with `f32` trigonometry in the source, main.rs:185-194) as a
parameter.  Concrete instances below use inputs whose trigonometric values are
exact, and every settled fact about a concrete run depends only on quantities
(candidate labels, sample counts, emptiness of lines, zero sums) that are
insensitive to the sub-pixel float error of the layout.
-/

set_option maxRecDepth 4000
set_option linter.unusedVariables false

namespace Pipetone

/-- Rust `x.floor() as u32` (main.rs:219), and `x as u32` on the nonnegative
coordinates of the erase loop (main.rs:241): the floor, saturated at zero
(Rust float-to-int casts saturate). -/
def pix (x : ℚ) : ℕ := (⌊x⌋).toNat

/-- The largest `j ≤ k` with `j * j ≤ n` (and `0` when none exists). -/
def isqrtAux (n : ℕ) : ℕ → ℕ
  | 0 => 0
  | k + 1 => if (k + 1) * (k + 1) ≤ n then k + 1 else isqrtAux n k

/-- The integer square root `⌊√n⌋`, written so that it evaluates by
structural recursion (it is proved equal to `Nat.sqrt` below). -/
def isqrt (n : ℕ) : ℕ := isqrtAux n n

/-- `EuclideanNorm.metric_distance(prev_pos, next_pos) as usize` (main.rs:209):
the Euclidean distance truncated toward zero.  Over exact arithmetic the
truncated square root of `d` is the integer square root of the truncated
radicand. -/
def dist (p q : ℚ × ℚ) : ℕ :=
  isqrt (Int.toNat ⌊(q.1 - p.1) ^ 2 + (q.2 - p.2) ^ 2⌋)

/-- `ndarray`'s `Array::linspace(a, b, n)` (main.rs:210-211): `n` evenly spaced
samples `a + i·(b-a)/(n-1)`; for `n ≤ 1` the step is zero, so the result is
`n` copies of `a`.  In particular `n = 0` yields the empty sequence. -/
def linspace (a b : ℚ) (n : ℕ) : List ℚ :=
  if n ≤ 1 then List.replicate n a
  else (List.range n).map (fun i : ℕ => a + (i : ℚ) * ((b - a) / ((n : ℚ) - 1)))

/-- The grayscale working buffer (`GrayImage`): a grid of `u8` values,
modelled as naturals indexed by `(x, y)`. -/
def Field : Type := ℕ → ℕ → ℕ

/-- The ordered pixel sequence of the segment from `p` to `q`: the source keeps
`x_line`/`y_line` as float arrays and floors each coordinate at every use
(main.rs:219, 240-241, 130-131); the floored pairs are recorded once here. -/
def rasterize (p q : ℚ × ℚ) : List (ℕ × ℕ) :=
  List.zip ((linspace p.1 q.1 (dist p q)).map pix)
           ((linspace p.2 q.2 (dist p q)).map pix)

/-- `line_sum` (main.rs:215-221): the sum of field values over a pixel
sequence. -/
def lineSum (f : Field) (pxs : List (ℕ × ℕ)) : ℕ :=
  (pxs.map (fun c => f c.1 c.2)).sum

/-- The erase loop (main.rs:240-242): every pixel of the committed line is set
to zero. -/
def erase (f : Field) (pxs : List (ℕ × ℕ)) : Field :=
  fun x y => if (x, y) ∈ pxs then 0 else f x y

/-- `struct Line` (main.rs:254-259); its `Eq`/`Ord` instances
(main.rs:272-290) compare the `sum` field only. -/
structure Line where
  dest_pin : ℕ
  pixels : List (ℕ × ℕ)
  sum : ℕ
deriving DecidableEq

/-- One combining step of `max` over `Line`s: the standard-library and rayon
`max` keep the LATER element when two compare equal, and `Ord for Line`
compares by `sum`. -/
def maxStep (acc : Option Line) (c : Line) : Option Line :=
  match acc with
  | none => some c
  | some b => if b.sum ≤ c.sum then some c else some b

/-- `…​.max()` (main.rs:232): maximum by `sum`; ties keep the last element in
iteration order (rayon's indexed reduction is order-preserving, so this is
deterministic). -/
def maxLast (l : List Line) : Option Line :=
  l.foldl maxStep none

/-- The rotated position sequence
`pin_positions[prev_pin..].par_iter().chain(&pin_positions[..prev_pin])`
(main.rs:202-204): it starts with `pin_positions[prev_pin]` itself. -/
def chain (positions : List (ℚ × ℚ)) (prev_pin : ℕ) : List (ℚ × ℚ) :=
  positions.drop prev_pin ++ positions.take prev_pin

/-- The `k`-th zipped candidate of one iteration (main.rs:202-231,
`k = j - 1` for the label range `j = 1 .. num_pins - 1`): the label
`(prev_pin + j) % num_pins` is paired with the line rasterized from `prev_pos`
toward element `j - 1` of the rotated position sequence — so the first label
is paired with the degenerate segment to `prev_pos` itself. -/
def candidate (positions : List (ℚ × ℚ)) (num_pins : ℕ) (f : Field)
    (prev_pins : ℕ × ℕ) (k : ℕ) : Line :=
  let next_pin := (prev_pins.2 + (k + 1)) % num_pins
  let pxs := rasterize (positions.getD prev_pins.2 (0, 0))
                       ((chain positions prev_pins.2).getD k (0, 0))
  Line.mk next_pin pxs (lineSum f pxs)

/-- One iteration's candidate list (main.rs:202-231): all zipped candidates,
with the labels still present in `prev_pins` filtered out (main.rs:228). -/
def candidates (positions : List (ℚ × ℚ)) (num_pins : ℕ) (f : Field)
    (prev_pins : ℕ × ℕ) : List Line :=
  ((List.range (num_pins - 1)).map (candidate positions num_pins f prev_pins)).filter
    (fun c => decide (c.dest_pin ≠ prev_pins.1) && decide (c.dest_pin ≠ prev_pins.2))

/-- The solver's mutable state: the intensity field, the `prev_pins` history
(main.rs:197), and the accumulated `threads`, each stored as its pixel sequence
and `dest_pin` (main.rs:237). -/
structure SolveState where
  field : Field
  prev_pins : ℕ × ℕ
  threads : List (List (ℕ × ℕ) × ℕ)

/-- Committing one chosen line (main.rs:235-242): shift `prev_pins`, push the
thread, erase its pixels from the field. -/
def commit (s : SolveState) (best : Line) : SolveState where
  field := erase s.field best.pixels
  prev_pins := (s.prev_pins.2, best.dest_pin)
  threads := s.threads ++ [(best.pixels, best.dest_pin)]

/-- The loop `for i in 0..max_threads` (main.rs:199-249).  `none` models the
`max().unwrap()` panic on an empty candidate set (main.rs:233); the committed
chord is pushed and erased before `best.dest_pin == prev_pin` is tested
(main.rs:237-246), so a firing break would still keep that chord. -/
def solveLoop (positions : List (ℚ × ℚ)) (num_pins : ℕ) :
    ℕ → SolveState → Option SolveState
  | 0, s => some s
  | fuel + 1, s =>
    match maxLast (candidates positions num_pins s.field s.prev_pins) with
    | none => none
    | some best =>
      if best.dest_pin = s.prev_pins.2 then some (commit s best)
      else solveLoop positions num_pins fuel (commit s best)

/-- `generate_threads` (main.rs:176-252), parametric in the pin layout: the
source builds `pin_positions` as `(radius·(1+cos α), radius·(1+sin α))` over
`Array::linspace(0, 2π, num_pins + 1)` in `f32` (main.rs:185-194); the
exact-arithmetic embedding takes the resulting list as an argument. -/
def generate_threads (positions : List (ℚ × ℚ)) (num_pins max_threads : ℕ)
    (f : Field) : Option (List (List (ℕ × ℕ) × ℕ)) :=
  (solveLoop positions num_pins max_threads ⟨f, (0, 0), []⟩).map SolveState.threads

/-- The circular-mask pass of `preprocess_img` (main.rs:297-306): with
`length = 2·radius + 1` we have `length/2 = radius`, and Rust's
`saturating_sub` on `u32` is natural subtraction, so a pixel is zeroed exactly
when `(x ∸ length/2)² + (y ∸ length/2)² > radius²`. -/
def maskedValue (radius length x y v : ℕ) : ℕ :=
  if radius ^ 2 < (x - length / 2) ^ 2 + (y - length / 2) ^ 2 then 0 else v

/-- `preprocess_img`'s mask applied to the (inverted, resized) grayscale data
`f`; the upstream crop/grayscale/resize/invert steps live in the external
`image` crate and only determine `f`. -/
def applyMask (radius length : ℕ) (f : Field) : Field :=
  fun x y => maskedValue radius length x y (f x y)

/-- The recorded pin path of a run: the fixed start pin 0 followed by the
`dest_pin` of every committed thread. -/
def pathPins (ts : List (List (ℕ × ℕ) × ℕ)) : List ℕ :=
  0 :: ts.map Prod.snd

/-- `l` never immediately reverses: entry `i + 2` always differs from entry
`i`, i.e. no two consecutive chords connect the same pin pair in reverse. -/
def NoRev (l : List ℕ) : Prop :=
  ∀ i, i + 2 < l.length → l.getD (i + 2) 0 ≠ l.getD i 0

/-- The loop invariant tying `prev_pins` to the recorded pin path: the history
holds the last two entries of the path, and the path never immediately
reverses. -/
def PinInv (s : SolveState) : Prop :=
  s.prev_pins.1 = (pathPins s.threads).getD ((pathPins s.threads).length - 2) 0 ∧
  s.prev_pins.2 = (pathPins s.threads).getD ((pathPins s.threads).length - 1) 0 ∧
  NoRev (pathPins s.threads)

/-- The states at which the solver loop evaluates a candidate set during a run
from `s`: the initial state and everything obtained by committing a selected
line.  (Since the selected destination never equals the current pin, the break
never cuts this set short.) -/
inductive Reaches (positions : List (ℚ × ℚ)) (num_pins : ℕ) :
    SolveState → SolveState → Prop
  | refl (s : SolveState) : Reaches positions num_pins s s
  | step (s t : SolveState) (b : Line) :
      Reaches positions num_pins s t →
      maxLast (candidates positions num_pins t.field t.prev_pins) = some b →
      Reaches positions num_pins s (commit t b)

/-- Exact pin layout for `num_pins = 4`, `radius = 2`: angles
`0, π/2, π, 3π/2, 2π`, whose sines and cosines are exact. -/
def positions4 : List (ℚ × ℚ) := [(4, 2), (2, 4), (0, 2), (2, 0), (4, 2)]

/-- Pin layout for `num_pins = 3`, `radius = 0`: every position is exactly
`(0, 0)` (the source multiplies by `radius = 0`, which is exact even in
floating point). -/
def positions0 : List (ℚ × ℚ) := [(0, 0), (0, 0), (0, 0), (0, 0)]

/-- Exact-value pin layout for `num_pins = 2`, `radius = 1` (angles 0, π,
2π). -/
def positions2 : List (ℚ × ℚ) := [(2, 1), (0, 1), (2, 1)]

/-- Exact-value pin layout for `num_pins = 1`, `radius = 1` (angles 0, 2π). -/
def positions1 : List (ℚ × ℚ) := [(2, 1), (2, 1)]

/-! ### The integer square root agrees with `Nat.sqrt` -/

lemma isqrtAux_mul_le (n k : ℕ) : isqrtAux n k * isqrtAux n k ≤ n := by
  induction k with
  | zero => simp [isqrtAux]
  | succ k ih =>
    rw [isqrtAux]
    split_ifs with h
    · exact h
    · exact ih

lemma le_isqrtAux (n k j : ℕ) (hj : j ≤ k) (hjj : j * j ≤ n) :
    j ≤ isqrtAux n k := by
  induction k with
  | zero => omega
  | succ k ih =>
    rw [isqrtAux]
    split_ifs with h
    · exact hj
    · have hjk : j ≤ k := by
        rcases Nat.eq_or_lt_of_le hj with rfl | h2
        · exact absurd hjj h
        · omega
      exact ih hjk

lemma isqrt_eq_sqrt (n : ℕ) : isqrt n = Nat.sqrt n := by
  refine Nat.eq_sqrt.mpr ⟨isqrtAux_mul_le n n, ?_⟩
  by_contra hcon
  push_neg at hcon
  have h1 : isqrt n + 1 ≤ n :=
    le_trans (Nat.le_mul_of_pos_left _ (Nat.succ_pos _)) hcon
  have h2 := le_isqrtAux n n (isqrt n + 1) h1 hcon
  unfold isqrt at h2
  omega

/-! ### The last-maximum semantics of `maxLast` -/

lemma foldl_maxStep_isSome (l : List Line) (a : Line) :
    ∃ b, List.foldl maxStep (some a) l = some b := by
  induction l generalizing a with
  | nil => exact ⟨a, rfl⟩
  | cons c t ih =>
    rw [List.foldl_cons]
    simp only [maxStep]
    split_ifs
    · exact ih c
    · exact ih a

lemma foldl_maxStep_le (l : List Line) (a b : Line)
    (h : List.foldl maxStep (some a) l = some b) :
    (b = a ∨ b ∈ l) ∧ a.sum ≤ b.sum ∧ ∀ c ∈ l, c.sum ≤ b.sum := by
  induction l generalizing a with
  | nil =>
    obtain rfl : a = b := Option.some.inj h
    exact ⟨Or.inl rfl, le_refl _, by simp⟩
  | cons c t ih =>
    rw [List.foldl_cons] at h
    simp only [maxStep] at h
    split_ifs at h with hac
    · obtain ⟨hmem, hcb, hall⟩ := ih c h
      refine ⟨?_, le_trans hac hcb, ?_⟩
      · rcases hmem with rfl | hmem
        · exact Or.inr (List.mem_cons_self _ _)
        · exact Or.inr (List.mem_cons_of_mem _ hmem)
      · intro x hx
        rcases List.mem_cons.mp hx with rfl | hx
        · exact hcb
        · exact hall x hx
    · obtain ⟨hmem, hab, hall⟩ := ih a h
      push_neg at hac
      refine ⟨?_, hab, ?_⟩
      · rcases hmem with rfl | hmem
        · exact Or.inl rfl
        · exact Or.inr (List.mem_cons_of_mem _ hmem)
      · intro x hx
        rcases List.mem_cons.mp hx with rfl | hx
        · exact le_trans (le_of_lt hac) hab
        · exact hall x hx

lemma foldl_maxStep_last (l : List Line) (a b : Line)
    (h : List.foldl maxStep (some a) l = some b) :
    (b = a ∧ ∀ c ∈ l, c.sum < a.sum) ∨
    ∃ i, ∃ hi : i < l.length, l.get ⟨i, hi⟩ = b ∧ a.sum ≤ b.sum ∧
      ∀ j, ∀ hj : j < l.length, i < j → (l.get ⟨j, hj⟩).sum < b.sum := by
  induction l generalizing a with
  | nil =>
    obtain rfl : a = b := Option.some.inj h
    exact Or.inl ⟨rfl, by simp⟩
  | cons c t ih =>
    rw [List.foldl_cons] at h
    simp only [maxStep] at h
    split_ifs at h with hac
    · right
      rcases ih c h with ⟨rfl, hall⟩ | ⟨i, hi, hget, hle, hlast⟩
      · refine ⟨0, by simp, rfl, hac, ?_⟩
        intro j hj hji
        cases j with
        | zero => omega
        | succ j' =>
          have hj' : j' < t.length := by simpa using hj
          exact hall _ (List.get_mem t _ _)
      · refine ⟨i + 1, by simpa using hi, hget, le_trans hac hle, ?_⟩
        intro j hj hji
        cases j with
        | zero => omega
        | succ j' =>
          have hj' : j' < t.length := by simpa using hj
          exact hlast j' hj' (by omega)
    · push_neg at hac
      rcases ih a h with ⟨rfl, hall⟩ | ⟨i, hi, hget, hle, hlast⟩
      · left
        refine ⟨rfl, ?_⟩
        intro x hx
        rcases List.mem_cons.mp hx with rfl | hx
        · exact hac
        · exact hall x hx
      · right
        refine ⟨i + 1, by simpa using hi, hget, hle, ?_⟩
        intro j hj hji
        cases j with
        | zero => omega
        | succ j' =>
          have hj' : j' < t.length := by simpa using hj
          exact hlast j' hj' (by omega)

lemma maxLast_isSome (l : List Line) (hne : l ≠ []) : ∃ b, maxLast l = some b := by
  cases l with
  | nil => exact absurd rfl hne
  | cons c t => exact foldl_maxStep_isSome t c

lemma maxLast_mem (l : List Line) (b : Line) (h : maxLast l = some b) : b ∈ l := by
  cases l with
  | nil => exact absurd h (by simp [maxLast])
  | cons c t =>
    rcases (foldl_maxStep_le t c b h).1 with rfl | hmem
    · exact List.mem_cons_self _ _
    · exact List.mem_cons_of_mem _ hmem

lemma maxLast_le (l : List Line) (b : Line) (h : maxLast l = some b) :
    ∀ c ∈ l, c.sum ≤ b.sum := by
  cases l with
  | nil => exact absurd h (by simp [maxLast])
  | cons c t =>
    obtain ⟨_, hcb, hall⟩ := foldl_maxStep_le t c b h
    intro x hx
    rcases List.mem_cons.mp hx with rfl | hx
    · exact hcb
    · exact hall x hx

lemma maxLast_last (l : List Line) (b : Line) (h : maxLast l = some b) :
    ∃ i, ∃ hi : i < l.length, l.get ⟨i, hi⟩ = b ∧
      ∀ j, ∀ hj : j < l.length, i < j → (l.get ⟨j, hj⟩).sum < b.sum := by
  cases l with
  | nil => exact absurd h (by simp [maxLast])
  | cons c t =>
    rcases foldl_maxStep_last t c b h with ⟨rfl, hall⟩ | ⟨i, hi, hget, _, hlast⟩
    · refine ⟨0, by simp, rfl, ?_⟩
      intro j hj hji
      cases j with
      | zero => omega
      | succ j' =>
        have hj' : j' < t.length := by simpa using hj
        exact hall _ (List.get_mem t _ _)
    · refine ⟨i + 1, by simpa using hi, hget, ?_⟩
      intro j hj hji
      cases j with
      | zero => omega
      | succ j' =>
        have hj' : j' < t.length := by simpa using hj
        exact hlast j' hj' (by omega)

/-! ### Structure of the candidate list -/

lemma candidate_dest (positions : List (ℚ × ℚ)) (num_pins : ℕ) (f : Field)
    (pp : ℕ × ℕ) (k : ℕ) :
    (candidate positions num_pins f pp k).dest_pin = (pp.2 + (k + 1)) % num_pins :=
  rfl

lemma candidate_pixels (positions : List (ℚ × ℚ)) (num_pins : ℕ) (f : Field)
    (pp : ℕ × ℕ) (k : ℕ) :
    (candidate positions num_pins f pp k).pixels =
      rasterize (positions.getD pp.2 (0, 0)) ((chain positions pp.2).getD k (0, 0)) :=
  rfl

lemma candidate_sum (positions : List (ℚ × ℚ)) (num_pins : ℕ) (f : Field)
    (pp : ℕ × ℕ) (k : ℕ) :
    (candidate positions num_pins f pp k).sum =
      lineSum f (candidate positions num_pins f pp k).pixels :=
  rfl

lemma candidates_dest (positions : List (ℚ × ℚ)) (num_pins : ℕ) (f : Field)
    (pp : ℕ × ℕ) (c : Line) (hc : c ∈ candidates positions num_pins f pp) :
    c.dest_pin ≠ pp.1 ∧ c.dest_pin ≠ pp.2 := by
  have hfilter := (List.mem_filter.mp hc).2
  simpa using hfilter

lemma candidates_label (positions : List (ℚ × ℚ)) (num_pins : ℕ) (f : Field)
    (pp : ℕ × ℕ) (c : Line) (hc : c ∈ candidates positions num_pins f pp) :
    ∃ k, k < num_pins - 1 ∧ c = candidate positions num_pins f pp k := by
  have hm := (List.mem_filter.mp hc).1
  obtain ⟨k, hk, rfl⟩ := List.mem_map.mp hm
  exact ⟨k, List.mem_range.mp hk, rfl⟩

lemma candidates_dest_lt (positions : List (ℚ × ℚ)) (num_pins : ℕ) (f : Field)
    (pp : ℕ × ℕ) (c : Line) (hc : c ∈ candidates positions num_pins f pp)
    (hn : 0 < num_pins) : c.dest_pin < num_pins := by
  obtain ⟨k, _, rfl⟩ := candidates_label positions num_pins f pp c hc
  exact Nat.mod_lt _ hn

lemma label_ne_prev (num_pins : ℕ) (h3 : 3 ≤ num_pins) (p j : ℕ)
    (h1 : 1 ≤ j) (h2 : j ≤ 2) : (p + j) % num_pins ≠ p := by
  intro heq
  rcases Nat.lt_or_ge p num_pins with hlt | hge
  · have hmod : (p + j) % num_pins = p % num_pins := by
      rw [heq, Nat.mod_eq_of_lt hlt]
    have hMe : j ≡ 0 [MOD num_pins] := by
      have : p + j ≡ p + 0 [MOD num_pins] := by
        simpa using (hmod : Nat.ModEq num_pins (p + j) p)
      exact Nat.ModEq.add_left_cancel' p this
    have hdvd : num_pins ∣ j := (Nat.modEq_zero_iff_dvd).mp hMe
    have := Nat.le_of_dvd (by omega) hdvd
    omega
  · have := Nat.mod_lt (p + j) (show 0 < num_pins by omega)
    omega

lemma candidates_ne_nil (positions : List (ℚ × ℚ)) (num_pins : ℕ) (f : Field)
    (pp : ℕ × ℕ) (h3 : 3 ≤ num_pins) :
    candidates positions num_pins f pp ≠ [] := by
  have hne12 : (pp.2 + 1) % num_pins ≠ (pp.2 + 2) % num_pins := by
    intro heq
    have hMe : (1 : ℕ) ≡ 2 [MOD num_pins] := Nat.ModEq.add_left_cancel' pp.2 heq
    have hdvd : num_pins ∣ 2 - 1 := (Nat.modEq_iff_dvd' (by omega)).mp hMe
    have := Nat.le_of_dvd (by omega) hdvd
    omega
  have hmem : ∀ k, k < num_pins - 1 →
      (candidate positions num_pins f pp k).dest_pin ≠ pp.1 →
      (candidate positions num_pins f pp k).dest_pin ≠ pp.2 →
      candidate positions num_pins f pp k ∈ candidates positions num_pins f pp := by
    intro k hk hd1 hd2
    exact List.mem_filter.mpr
      ⟨List.mem_map_of_mem _ (List.mem_range.mpr hk), by simp [hd1, hd2]⟩
  by_cases h1 : (pp.2 + 1) % num_pins = pp.1
  · refine List.ne_nil_of_mem (hmem 1 (by omega) ?_ ?_)
    · rw [candidate_dest]
      intro heq
      exact hne12 (by rw [h1, ← heq])
    · rw [candidate_dest]
      exact label_ne_prev num_pins h3 pp.2 2 (by omega) (by omega)
  · refine List.ne_nil_of_mem (hmem 0 (by omega) ?_ ?_)
    · rw [candidate_dest]
      exact h1
    · rw [candidate_dest]
      exact label_ne_prev num_pins h3 pp.2 1 (by omega) (by omega)

/-! ### The solver loop: field monotonicity, length, no self-destination -/

lemma erase_le (f : Field) (pxs : List (ℕ × ℕ)) (x y : ℕ) :
    erase f pxs x y ≤ f x y := by
  unfold erase
  split_ifs
  · exact Nat.zero_le _
  · exact le_refl _

lemma commit_field_le (s : SolveState) (b : Line) (x y : ℕ) :
    (commit s b).field x y ≤ s.field x y :=
  erase_le _ _ _ _

lemma commit_threads (s : SolveState) (b : Line) :
    (commit s b).threads = s.threads ++ [(b.pixels, b.dest_pin)] :=
  rfl

lemma commit_prev_pins (s : SolveState) (b : Line) :
    (commit s b).prev_pins = (s.prev_pins.2, b.dest_pin) :=
  rfl

lemma solveLoop_field_le (positions : List (ℚ × ℚ)) (num_pins : ℕ) :
    ∀ fuel (s st : SolveState),
      solveLoop positions num_pins fuel s = some st →
      ∀ x y, st.field x y ≤ s.field x y := by
  intro fuel
  induction fuel with
  | zero =>
    intro s st h x y
    obtain rfl : s = st := Option.some.inj h
    exact le_refl _
  | succ fuel ih =>
    intro s st h x y
    rw [solveLoop] at h
    cases hmax : maxLast (candidates positions num_pins s.field s.prev_pins) with
    | none =>
      rw [hmax] at h
      exact absurd h (by simp)
    | some best =>
      rw [hmax] at h
      simp only [] at h
      split_ifs at h with hdest
      · obtain rfl : commit s best = st := Option.some.inj h
        exact commit_field_le s best x y
      · exact le_trans (ih _ _ h x y) (commit_field_le s best x y)

lemma maxLast_candidates_dest (positions : List (ℚ × ℚ)) (num_pins : ℕ)
    (f : Field) (pp : ℕ × ℕ) (b : Line)
    (h : maxLast (candidates positions num_pins f pp) = some b) :
    b.dest_pin ≠ pp.1 ∧ b.dest_pin ≠ pp.2 :=
  candidates_dest _ _ _ _ _ (maxLast_mem _ _ h)

lemma solveLoop_length (positions : List (ℚ × ℚ)) (num_pins : ℕ)
    (h3 : 3 ≤ num_pins) :
    ∀ fuel (s : SolveState), ∃ st,
      solveLoop positions num_pins fuel s = some st ∧
      st.threads.length = s.threads.length + fuel := by
  intro fuel
  induction fuel with
  | zero =>
    intro s
    exact ⟨s, rfl, by omega⟩
  | succ fuel ih =>
    intro s
    obtain ⟨best, hmax⟩ :=
      maxLast_isSome _ (candidates_ne_nil positions num_pins s.field s.prev_pins h3)
    have hdest :=
      (maxLast_candidates_dest positions num_pins s.field s.prev_pins best hmax).2
    obtain ⟨st, hst, hlen⟩ := ih (commit s best)
    refine ⟨st, ?_, ?_⟩
    · rw [solveLoop, hmax]
      simp only []
      rw [if_neg hdest]
      exact hst
    · rw [hlen, commit_threads]
      rw [List.length_append]
      simp
      omega

lemma reaches_field_le (positions : List (ℚ × ℚ)) (num_pins : ℕ)
    (s t : SolveState) (h : Reaches positions num_pins s t) :
    ∀ x y, t.field x y ≤ s.field x y := by
  induction h with
  | refl => exact fun x y => le_refl _
  | step t b hr hmax ih =>
    exact fun x y => le_trans (commit_field_le t b x y) (ih x y)

lemma lineSum_eq_zero (f : Field) (hf : ∀ x y, f x y = 0)
    (pxs : List (ℕ × ℕ)) : lineSum f pxs = 0 := by
  unfold lineSum
  refine List.sum_eq_zero ?_
  intro x hx
  obtain ⟨c, _, rfl⟩ := List.mem_map.mp hx
  exact hf c.1 c.2

/-! ### Rasterization: lengths and floored square-root bounds -/

lemma linspace_length (a b : ℚ) (n : ℕ) : (linspace a b n).length = n := by
  unfold linspace
  split_ifs <;> simp

lemma rasterize_length (p q : ℚ × ℚ) : (rasterize p q).length = dist p q := by
  unfold rasterize
  rw [List.length_zip]
  simp [linspace_length]

lemma dist_self (p : ℚ × ℚ) : dist p p = 0 := by
  unfold dist
  have h0 : (p.1 - p.1) ^ 2 + (p.2 - p.2) ^ 2 = (0 : ℚ) := by
    rw [sub_self, sub_self]
    norm_num
  rw [h0]
  rw [Int.floor_zero]
  rfl

lemma rasterize_self (p : ℚ × ℚ) : rasterize p p = [] := by
  have h := rasterize_length p p
  rw [dist_self] at h
  exact List.length_eq_zero.mp h

lemma dist_sq_le (p q : ℚ × ℚ) :
    ((dist p q : ℕ) : ℚ) ^ 2 ≤ (q.1 - p.1) ^ 2 + (q.2 - p.2) ^ 2 := by
  set D : ℚ := (q.1 - p.1) ^ 2 + (q.2 - p.2) ^ 2 with hD
  have hD0 : 0 ≤ D := by positivity
  have hfl0 : 0 ≤ ⌊D⌋ := Int.floor_nonneg.mpr hD0
  have hmz : ((Int.toNat ⌊D⌋ : ℕ) : ℤ) = ⌊D⌋ := Int.toNat_of_nonneg hfl0
  have hsq : dist p q * dist p q ≤ Int.toNat ⌊D⌋ := by
    rw [dist, isqrt_eq_sqrt, ← hD]
    exact Nat.sqrt_le _
  have h1 : ((dist p q : ℕ) : ℚ) ^ 2 ≤ ((Int.toNat ⌊D⌋ : ℕ) : ℚ) := by
    rw [pow_two]
    exact_mod_cast hsq
  have h2 : ((Int.toNat ⌊D⌋ : ℕ) : ℚ) ≤ D := by
    have hfle : ((⌊D⌋ : ℤ) : ℚ) ≤ D := Int.floor_le D
    have : ((Int.toNat ⌊D⌋ : ℕ) : ℚ) = ((⌊D⌋ : ℤ) : ℚ) := by exact_mod_cast hmz
    rw [this]
    exact hfle
  linarith

lemma lt_dist_add_one_sq (p q : ℚ × ℚ) :
    (q.1 - p.1) ^ 2 + (q.2 - p.2) ^ 2 < (((dist p q : ℕ) : ℚ) + 1) ^ 2 := by
  set D : ℚ := (q.1 - p.1) ^ 2 + (q.2 - p.2) ^ 2 with hD
  have hD0 : 0 ≤ D := by positivity
  have hfl0 : 0 ≤ ⌊D⌋ := Int.floor_nonneg.mpr hD0
  have hmz : ((Int.toNat ⌊D⌋ : ℕ) : ℤ) = ⌊D⌋ := Int.toNat_of_nonneg hfl0
  have hlt : Int.toNat ⌊D⌋ < (dist p q + 1) * (dist p q + 1) := by
    rw [dist, isqrt_eq_sqrt, ← hD]
    exact Nat.lt_succ_sqrt _
  have h1 : D < ((Int.toNat ⌊D⌋ : ℕ) : ℚ) + 1 := by
    have hflt : D < ((⌊D⌋ : ℤ) : ℚ) + 1 := Int.lt_floor_add_one D
    have : ((Int.toNat ⌊D⌋ : ℕ) : ℚ) = ((⌊D⌋ : ℤ) : ℚ) := by exact_mod_cast hmz
    rw [this]
    exact hflt
  have h2 : ((Int.toNat ⌊D⌋ : ℕ) : ℚ) + 1 ≤ (((dist p q : ℕ) : ℚ) + 1) ^ 2 := by
    have : Int.toNat ⌊D⌋ + 1 ≤ (dist p q + 1) * (dist p q + 1) := hlt
    have hc : ((Int.toNat ⌊D⌋ + 1 : ℕ) : ℚ) ≤ (((dist p q + 1) * (dist p q + 1) : ℕ) : ℚ) := by
      exact_mod_cast this
    push_cast at hc
    nlinarith [hc]
  linarith

/-! ### Coordinate bounds: interpolated pixels stay inside the field -/

lemma pix_le (x : ℚ) (M : ℕ) (hx : x ≤ (M : ℚ)) : pix x ≤ M := by
  unfold pix
  refine Int.toNat_le.mpr ?_
  have h := Int.floor_le_floor hx
  rwa [Int.floor_natCast] at h

lemma linspace_bounds (a b : ℚ) (n : ℕ) (M : ℚ)
    (ha0 : 0 ≤ a) (haM : a ≤ M) (hb0 : 0 ≤ b) (hbM : b ≤ M) :
    ∀ x ∈ linspace a b n, 0 ≤ x ∧ x ≤ M := by
  intro x hx
  unfold linspace at hx
  split_ifs at hx with hn
  · have := List.eq_of_mem_replicate hx
    subst this
    exact ⟨ha0, haM⟩
  · obtain ⟨i, hi, rfl⟩ := List.mem_map.mp hx
    have hilt : i < n := List.mem_range.mp hi
    have hn2 : 2 ≤ n := by omega
    have hn2q : (2 : ℚ) ≤ (n : ℚ) := by exact_mod_cast hn2
    have hden : (0 : ℚ) < (n : ℚ) - 1 := by linarith
    have hi1 : (i : ℚ) + 1 ≤ (n : ℚ) := by exact_mod_cast hilt
    set t : ℚ := (i : ℚ) / ((n : ℚ) - 1) with ht
    have ht0 : 0 ≤ t := div_nonneg (by positivity) (le_of_lt hden)
    have ht1 : t ≤ 1 := by
      rw [ht, div_le_one hden]
      linarith
    have hxeq : a + (i : ℚ) * ((b - a) / ((n : ℚ) - 1)) = (1 - t) * a + t * b := by
      rw [ht]
      field_simp
      ring
    rw [hxeq]
    constructor
    · have hp1 := mul_nonneg (by linarith : (0 : ℚ) ≤ 1 - t) ha0
      have hp2 := mul_nonneg ht0 hb0
      linarith
    · have h1 : (1 - t) * a ≤ (1 - t) * M :=
        mul_le_mul_of_nonneg_left haM (by linarith)
      have h2 : t * b ≤ t * M := mul_le_mul_of_nonneg_left hbM ht0
      have h3 : (1 - t) * M + t * M = M := by ring
      linarith

lemma rasterize_bounds (p q : ℚ × ℚ) (M : ℕ)
    (hp1 : 0 ≤ p.1) (hp1M : p.1 ≤ (M : ℚ)) (hp2 : 0 ≤ p.2) (hp2M : p.2 ≤ (M : ℚ))
    (hq1 : 0 ≤ q.1) (hq1M : q.1 ≤ (M : ℚ)) (hq2 : 0 ≤ q.2) (hq2M : q.2 ≤ (M : ℚ)) :
    ∀ c ∈ rasterize p q, c.1 ≤ M ∧ c.2 ≤ M := by
  intro c hc
  unfold rasterize at hc
  have hz := List.of_mem_zip hc
  obtain ⟨x, hx, hx1⟩ := List.mem_map.mp hz.1
  obtain ⟨y, hy, hy1⟩ := List.mem_map.mp hz.2
  have hxb := linspace_bounds p.1 q.1 (dist p q) (M : ℚ) hp1 hp1M hq1 hq1M x hx
  have hyb := linspace_bounds p.2 q.2 (dist p q) (M : ℚ) hp2 hp2M hq2 hq2M y hy
  constructor
  · rw [← hx1]
    exact pix_le x M hxb.2
  · rw [← hy1]
    exact pix_le y M hyb.2

lemma chain_subset (positions : List (ℚ × ℚ)) (prev_pin : ℕ) (x : ℚ × ℚ)
    (hx : x ∈ chain positions prev_pin) : x ∈ positions := by
  unfold chain at hx
  rcases List.mem_append.mp hx with h | h
  · exact List.mem_of_mem_drop h
  · exact List.mem_of_mem_take h

lemma getD_mem_or_default {α : Type} (l : List α) (k : ℕ) (d : α) :
    l.getD k d ∈ l ∨ l.getD k d = d := by
  induction l generalizing k with
  | nil =>
    right
    cases k <;> rfl
  | cons a t ih =>
    cases k with
    | zero =>
      left
      simp
    | succ k' =>
      rw [List.getD_cons_succ]
      rcases ih k' with h | h
      · exact Or.inl (List.mem_cons_of_mem _ h)
      · exact Or.inr h

/-- Every pixel of every zipped candidate is strictly inside the
`length = 2·radius + 1` bound on both axes, as soon as every pin position has
coordinates in `[0, 2·radius]`. -/
lemma candidate_pixels_bounds (positions : List (ℚ × ℚ)) (num_pins : ℕ)
    (f : Field) (pp : ℕ × ℕ) (k : ℕ) (radius : ℕ)
    (hpos : ∀ r ∈ positions,
      0 ≤ r.1 ∧ r.1 ≤ ((2 * radius : ℕ) : ℚ) ∧ 0 ≤ r.2 ∧ r.2 ≤ ((2 * radius : ℕ) : ℚ)) :
    ∀ c ∈ (candidate positions num_pins f pp k).pixels,
      c.1 < 2 * radius + 1 ∧ c.2 < 2 * radius + 1 := by
  intro c hc
  rw [candidate_pixels] at hc
  have hzero : (0 : ℚ) ≤ ((2 * radius : ℕ) : ℚ) := by positivity
  have hprev : ∀ r : ℚ × ℚ, r ∈ positions ∨ r = ((0 : ℚ), (0 : ℚ)) →
      0 ≤ r.1 ∧ r.1 ≤ ((2 * radius : ℕ) : ℚ) ∧ 0 ≤ r.2 ∧ r.2 ≤ ((2 * radius : ℕ) : ℚ) := by
    intro r hr
    rcases hr with hr | rfl
    · exact hpos r hr
    · exact ⟨le_refl _, hzero, le_refl _, hzero⟩
  have hp := hprev (positions.getD pp.2 (0, 0)) (getD_mem_or_default positions pp.2 (0, 0))
  have hqmem : (chain positions pp.2).getD k (0, 0) ∈ positions ∨
      (chain positions pp.2).getD k (0, 0) = ((0 : ℚ), (0 : ℚ)) := by
    rcases getD_mem_or_default (chain positions pp.2) k (0, 0) with h | h
    · exact Or.inl (chain_subset positions pp.2 _ h)
    · exact Or.inr h
  have hq := hprev _ hqmem
  have hb := rasterize_bounds (positions.getD pp.2 (0, 0))
    ((chain positions pp.2).getD k (0, 0)) (2 * radius)
    hp.1 hp.2.1 hp.2.2.1 hp.2.2.2 hq.1 hq.2.1 hq.2.2.1 hq.2.2.2 c hc
  omega

/-! ### Claim theorems with general proofs -/

/-- Claim C2 (amended): after preprocessing, every cell whose
saturating-subtraction distance `(x ∸ radius)² + (y ∸ radius)²` exceeds
`radius²` is zero, and every such cell stays zero through the whole solve.
(The original claim — true Euclidean distance — fails: see the
counterexample.) -/
theorem C2_mask_invariant (radius x y : ℕ) (f : Field)
    (h : radius ^ 2 < (x - radius) ^ 2 + (y - radius) ^ 2) :
    applyMask radius (2 * radius + 1) f x y = 0 ∧
    ∀ (positions : List (ℚ × ℚ)) (num_pins fuel : ℕ) (st : SolveState),
      solveLoop positions num_pins fuel
        ⟨applyMask radius (2 * radius + 1) f, (0, 0), []⟩ = some st →
      st.field x y = 0 := by
  have hdiv : (2 * radius + 1) / 2 = radius := by omega
  have hmask : applyMask radius (2 * radius + 1) f x y = 0 := by
    unfold applyMask maskedValue
    rw [hdiv]
    exact if_pos h
  refine ⟨hmask, ?_⟩
  intro positions num_pins fuel st hsolve
  have hle : st.field x y ≤ applyMask radius (2 * radius + 1) f x y :=
    solveLoop_field_le positions num_pins fuel _ st hsolve x y
  omega

/-- Claim C4 (amended): on an all-zero intensity field the solver does NOT
return an empty path — every candidate of every reachable iteration scores
zero, the selected destination never equals the current pin, and the loop
commits exactly `max_chords` zero-score chords. -/
theorem C4_zero_field (positions : List (ℚ × ℚ)) (num_pins max_chords : ℕ)
    (f : Field) (h3 : 3 ≤ num_pins) (hzero : ∀ x y, f x y = 0) :
    (solveLoop positions num_pins max_chords ⟨f, (0, 0), []⟩).map
      (fun st => st.threads.length) = some max_chords ∧
    ∀ t : SolveState, Reaches positions num_pins ⟨f, (0, 0), []⟩ t →
      ∀ c ∈ candidates positions num_pins t.field t.prev_pins, c.sum = 0 := by
  constructor
  · obtain ⟨st, hst, hlen⟩ :=
      solveLoop_length positions num_pins h3 max_chords ⟨f, (0, 0), []⟩
    have hlen2 : st.threads.length = 0 + max_chords := hlen
    rw [hst]
    have he : st.threads.length = max_chords := by omega
    exact congrArg some he
  · intro t ht c hc
    have hf0 : ∀ x y, t.field x y = 0 := by
      intro x y
      have hle : t.field x y ≤ f x y :=
        reaches_field_le positions num_pins _ t ht x y
      have h0 := hzero x y
      omega
    obtain ⟨k, _, rfl⟩ := candidates_label _ _ _ _ _ hc
    rw [candidate_sum]
    exact lineSum_eq_zero _ hf0 _

/-- Claim C5 (amended): the rasterized line has exactly
`dist = ⌊EuclideanDistance⌋` samples (truncation, not rounding, and with no
minimum), each floor-truncated to a pixel; a zero-length segment yields the
EMPTY sequence.  The two middle conjuncts pin `dist` to the floored square
root of the radicand. -/
theorem C5_rasterization (p q : ℚ × ℚ) :
    (rasterize p q).length = dist p q ∧
    ((dist p q : ℕ) : ℚ) ^ 2 ≤ (q.1 - p.1) ^ 2 + (q.2 - p.2) ^ 2 ∧
    (q.1 - p.1) ^ 2 + (q.2 - p.2) ^ 2 < (((dist p q : ℕ) : ℚ) + 1) ^ 2 ∧
    rasterize p p = [] :=
  ⟨rasterize_length p q, dist_sq_le p q, lt_dist_add_one_sq p q, rasterize_self p⟩

/-- Claim C7: field values are naturals (non-negative) and are monotonically
non-increasing at every coordinate across the solve: erase only zeroes cells
and no solver operation increases one. -/
theorem C7_monotone (positions : List (ℚ × ℚ)) (num_pins fuel : ℕ)
    (s st : SolveState) (h : solveLoop positions num_pins fuel s = some st)
    (x y : ℕ) : st.field x y ≤ s.field x y ∧ 0 ≤ st.field x y :=
  ⟨solveLoop_field_le positions num_pins fuel s st h x y, Nat.zero_le _⟩

/-- Claim C8: for `num_pins ≥ 3` the solver always halts with exactly
`max_chords` committed chords (`max_chords = 0` returns the initial state
unchanged, evaluating nothing), and it halts strictly before committing
`max_chords` chords iff some evaluated iteration selects the current pin —
an equivalence of two provably-false propositions, since the `prev_pins`
filter removes the current pin from every candidate set. -/
theorem C8_termination (positions : List (ℚ × ℚ)) (num_pins max_chords : ℕ)
    (f : Field) (h3 : 3 ≤ num_pins) :
    (solveLoop positions num_pins max_chords ⟨f, (0, 0), []⟩).map
      (fun st => st.threads.length) = some max_chords ∧
    (max_chords = 0 →
      solveLoop positions num_pins max_chords ⟨f, (0, 0), []⟩ =
        some ⟨f, (0, 0), []⟩) ∧
    ((∃ st, solveLoop positions num_pins max_chords ⟨f, (0, 0), []⟩ = some st ∧
        st.threads.length < max_chords) ↔
      (∃ (t : SolveState) (b : Line),
        Reaches positions num_pins ⟨f, (0, 0), []⟩ t ∧
        maxLast (candidates positions num_pins t.field t.prev_pins) = some b ∧
        b.dest_pin = t.prev_pins.2)) := by
  obtain ⟨st, hst, hlen⟩ :=
    solveLoop_length positions num_pins h3 max_chords ⟨f, (0, 0), []⟩
  have hlen2 : st.threads.length = 0 + max_chords := hlen
  refine ⟨?_, ?_, ?_, ?_⟩
  · rw [hst]
    have he : st.threads.length = max_chords := by omega
    exact congrArg some he
  · rintro rfl
    rfl
  · rintro ⟨st2, hst2, hlt⟩
    rw [hst] at hst2
    obtain rfl : st = st2 := Option.some.inj hst2
    omega
  · rintro ⟨t, b, _, hmax, hdest⟩
    exact absurd hdest (maxLast_candidates_dest _ _ _ _ _ hmax).2

/-- Claim C9: whenever every pin position has both coordinates in
`[0, 2·radius]` (which the layout formula `radius·(1 + cos/sin α)` ensures),
every pixel coordinate of every candidate line evaluated at any state the
solve reaches — hence everything read by scoring and written by erasing —
is strictly below `length = 2·radius + 1` on both axes. -/
theorem C9_in_bounds (positions : List (ℚ × ℚ)) (num_pins radius : ℕ)
    (f : Field)
    (hpos : ∀ r ∈ positions,
      0 ≤ r.1 ∧ r.1 ≤ ((2 * radius : ℕ) : ℚ) ∧
      0 ≤ r.2 ∧ r.2 ≤ ((2 * radius : ℕ) : ℚ))
    (s t : SolveState) (hr : Reaches positions num_pins s t) (c : Line)
    (hc : c ∈ candidates positions num_pins t.field t.prev_pins) :
    ∀ q ∈ c.pixels, q.1 < 2 * radius + 1 ∧ q.2 < 2 * radius + 1 := by
  obtain ⟨k, _, rfl⟩ := candidates_label _ _ _ _ _ hc
  exact candidate_pixels_bounds positions num_pins t.field t.prev_pins k radius hpos

/-! ### The anti-reversal invariant -/

lemma pathPins_append (ts : List (List (ℕ × ℕ) × ℕ)) (x : List (ℕ × ℕ) × ℕ) :
    pathPins (ts ++ [x]) = pathPins ts ++ [x.2] := by
  unfold pathPins
  simp

lemma pathPins_length_pos (ts : List (List (ℕ × ℕ) × ℕ)) :
    0 < (pathPins ts).length := by
  unfold pathPins
  simp

lemma commit_PinInv (s : SolveState) (b : Line)
    (hb1 : b.dest_pin ≠ s.prev_pins.1) (hinv : PinInv s) :
    PinInv (commit s b) := by
  obtain ⟨h1, h2, h3⟩ := hinv
  set l := pathPins s.threads with hl
  have hlen : 0 < l.length := pathPins_length_pos _
  have hnew : pathPins (commit s b).threads = l ++ [b.dest_pin] := by
    rw [commit_threads, pathPins_append]
  have hlen2 : (l ++ [b.dest_pin]).length = l.length + 1 := by simp
  refine ⟨?_, ?_, ?_⟩
  · rw [commit_prev_pins, hnew, hlen2]
    have he : l.length + 1 - 2 = l.length - 1 := by omega
    rw [he, List.getD_append _ _ _ _ (by omega)]
    exact h2
  · rw [commit_prev_pins, hnew, hlen2]
    have he : l.length + 1 - 1 = l.length := by omega
    rw [he, List.getD_append_right _ _ _ _ (le_refl _)]
    simp
  · rw [hnew]
    intro i hi
    rw [hlen2] at hi
    rcases Nat.lt_or_ge (i + 2) l.length with hc | hc
    · rw [List.getD_append _ _ _ _ hc, List.getD_append _ _ _ _ (by omega)]
      exact h3 i hc
    · have hieq : i + 2 = l.length := by omega
      rw [List.getD_append_right _ _ _ _ (by omega), hieq, Nat.sub_self]
      rw [List.getD_cons_zero]
      rw [List.getD_append _ _ _ _ (by omega : i < l.length)]
      have hi2 : i = l.length - 2 := by omega
      rw [hi2, ← h1]
      exact hb1

lemma init_PinInv (f : Field) : PinInv ⟨f, (0, 0), []⟩ := by
  refine ⟨rfl, rfl, ?_⟩
  intro i hi
  simp [pathPins] at hi

lemma solveLoop_PinInv (positions : List (ℚ × ℚ)) (num_pins : ℕ) :
    ∀ fuel (s st : SolveState), PinInv s →
      solveLoop positions num_pins fuel s = some st → PinInv st := by
  intro fuel
  induction fuel with
  | zero =>
    intro s st hinv h
    obtain rfl : s = st := Option.some.inj h
    exact hinv
  | succ fuel ih =>
    intro s st hinv h
    rw [solveLoop] at h
    cases hmax : maxLast (candidates positions num_pins s.field s.prev_pins) with
    | none =>
      rw [hmax] at h
      exact absurd h (by simp)
    | some best =>
      rw [hmax] at h
      simp only [] at h
      have hb1 := (maxLast_candidates_dest _ _ _ _ _ hmax).1
      have hinv2 := commit_PinInv s best hb1 hinv
      split_ifs at h with hd
      · obtain rfl : commit s best = st := Option.some.inj h
        exact hinv2
      · exact ih _ _ hinv2 h

/-- Claim C6: for every run, if the committed chord at position `i` connects
pins `(a, b)` then the chord at position `i + 1` does not connect `(b, a)`:
entry `i + 2` of the recorded pin path always differs from entry `i`, because
the filter excludes both entries of `prev_pins` from the candidate set. -/
theorem C6_no_reversal (positions : List (ℚ × ℚ)) (num_pins max_threads : ℕ)
    (f : Field) (ts : List (List (ℕ × ℕ) × ℕ))
    (h : generate_threads positions num_pins max_threads f = some ts) :
    NoRev (pathPins ts) := by
  unfold generate_threads at h
  obtain ⟨st, hst, hts⟩ := Option.map_eq_some'.mp h
  have hinv :=
    solveLoop_PinInv positions num_pins max_threads _ st (init_PinInv f) hst
  rw [← hts]
  exact hinv.2.2

/-! ### Concrete evaluations of the embedded solver

The pin layouts used here (`positions4`, `positions0`, `positions2`,
`positions1`) are the exact values of the source's layout formula; all facts
established below depend only on candidate labels, sample counts, line
emptiness and zero sums, which are unchanged by the sub-pixel error of the
`f32` layout.  The `local semireducible` attribute only restores the default
reducibility of the kernel-computable rational operations so that `decide`
can evaluate them. -/

section ConcreteEvaluation

attribute [local semireducible] Rat.sub Rat.add Rat.mul Rat.inv

/-- Claim C1 (code-bug evaluation): at the first iteration with `num_pins = 4`
(radius-2 exact layout, uniform field 1), the candidate labelled pin 1
carries the rasterization of the degenerate segment to pin 0's own position
(empty), not the chord to pin 1 (non-empty); and the chord committed as
`(0, 3)` stores the pixels of the segment to pin 2's position `(0, 2)`,
which differ from the rasterization to pin 3's position `(2, 0)`. -/
theorem C1_offset_eval :
    (candidates positions4 4 (fun _ _ => 1) (0, 0)).head? =
      some (Line.mk 1 (rasterize (4, 2) (4, 2)) 0) ∧
    rasterize ((4 : ℚ), (2 : ℚ)) ((4 : ℚ), (2 : ℚ)) = [] ∧
    rasterize ((4 : ℚ), (2 : ℚ)) ((2 : ℚ), (4 : ℚ)) ≠ [] ∧
    generate_threads positions4 4 1 (fun _ _ => 1) =
      some [(rasterize (4, 2) (0, 2), 3)] ∧
    rasterize ((4 : ℚ), (2 : ℚ)) ((0 : ℚ), (2 : ℚ)) ≠
      rasterize ((4 : ℚ), (2 : ℚ)) ((2 : ℚ), (0 : ℚ)) := by
  decide

/-- Claim C2 counterexample: cell `(0, 0)` of a radius-2 field has true
squared Euclidean distance `8 > 4` from the center `(2, 2)`, yet the mask
leaves its value `7` untouched, because `saturating_sub` clamps `0 - 2`
to `0`. -/
theorem C2_counterexample :
    ((0 : ℤ) - 2) ^ 2 + ((0 : ℤ) - 2) ^ 2 > (2 : ℤ) ^ 2 ∧
    applyMask 2 5 (fun _ _ => 7) 0 0 = 7 := by
  decide

/-- Witness for the amended C2 at `radius = 2`, cell `(4, 4)`. -/
theorem C2_mask_invariant_witness :
    (2 : ℕ) ^ 2 < (4 - 2) ^ 2 + (4 - 2) ^ 2 ∧
    (applyMask 2 (2 * 2 + 1) (fun _ _ => 9) 4 4 = 0 ∧
      ∀ (positions : List (ℚ × ℚ)) (num_pins fuel : ℕ) (st : SolveState),
        solveLoop positions num_pins fuel
          ⟨applyMask 2 (2 * 2 + 1) (fun _ _ => 9), (0, 0), []⟩ = some st →
        st.field 4 4 = 0) :=
  ⟨by decide, C2_mask_invariant 2 4 4 (fun _ _ => 9) (by decide)⟩

/-- Claim C3 counterexample: on a uniform (all-zero) field with
`num_pins = 4` and start pin 0, all three candidates tie at the maximal
score 0 yet the first committed chord connects pin 0 to pin 3 — the LAST
candidate in enumeration order, not the first (pin 1); the uniform positive
field also yields pin 3. -/
theorem C3_counterexample :
    (∀ c ∈ candidates positions4 4 (fun _ _ => 0) (0, 0), c.sum = 0) ∧
    (candidates positions4 4 (fun _ _ => 0) (0, 0)).length = 3 ∧
    (generate_threads positions4 4 1 (fun _ _ => 0)).map (List.map Prod.snd) =
      some [3] ∧
    (generate_threads positions4 4 1 (fun _ _ => 1)).map (List.map Prod.snd) =
      some [3] := by
  decide

/-- Claim C3 (amended): the selection really is a maximum by score, but ties
keep the LAST maximal candidate in enumeration order (`Iterator::max`
semantics), and on the uniform 4-pin scenario the first chord therefore
connects pin 0 to pin 3. -/
theorem C3_last_tie_break :
    (∀ (l : List Line) (b : Line), maxLast l = some b → ∀ c ∈ l, c.sum ≤ b.sum) ∧
    (∀ (l : List Line) (b : Line), maxLast l = some b →
      ∃ i, ∃ hi : i < l.length, l.get ⟨i, hi⟩ = b ∧
        ∀ j, ∀ hj : j < l.length, i < j → (l.get ⟨j, hj⟩).sum < b.sum) ∧
    (generate_threads positions4 4 1 (fun _ _ => 0)).map (List.map Prod.snd) =
      some [3] :=
  ⟨maxLast_le, maxLast_last, by decide⟩

/-- Witness for the amended C3: a two-element tie resolved to the last. -/
theorem C3_last_tie_break_witness :
    maxLast [Line.mk 1 [] 0, Line.mk 2 [] 0] = some (Line.mk 2 [] 0) ∧
    ∀ c ∈ [Line.mk 1 [] 0, Line.mk 2 [] 0], c.sum ≤ (Line.mk 2 [] 0).sum :=
  ⟨by decide, C3_last_tie_break.1 [Line.mk 1 [] 0, Line.mk 2 [] 0]
    (Line.mk 2 [] 0) (by decide)⟩

/-- Claim C4 counterexample: an all-zero field with `max_chords = 2` yields a
path of 2 chords, not the empty path. -/
theorem C4_counterexample :
    (generate_threads positions4 4 2 (fun _ _ => 0)).map List.length =
      some 2 := by
  decide

/-- Witness for the amended C4 at `num_pins = 4`, `max_chords = 1`. -/
theorem C4_zero_field_witness :
    (3 : ℕ) ≤ 4 ∧
    ((solveLoop positions4 4 1 ⟨(fun _ _ => 0), (0, 0), []⟩).map
      (fun st => st.threads.length) = some 1 ∧
    ∀ t : SolveState, Reaches positions4 4 ⟨(fun _ _ => 0), (0, 0), []⟩ t →
      ∀ c ∈ candidates positions4 4 t.field t.prev_pins, c.sum = 0) :=
  ⟨by decide, C4_zero_field positions4 4 1 (fun _ _ => 0) (by decide)
    (fun _ _ => rfl)⟩

/-- Claim C5 counterexample: the degenerate zero-length segment rasterizes to
the EMPTY sequence (not a single pixel), and a segment of exact length `3/2`
gets `1` sample where rounding would give `2`. -/
theorem C5_counterexample :
    rasterize ((0 : ℚ), (0 : ℚ)) ((0 : ℚ), (0 : ℚ)) = [] ∧
    ((0 : ℚ) - 0) ^ 2 + ((3 : ℚ) / 2 - 0) ^ 2 = (3 / 2) ^ 2 ∧
    round ((3 : ℚ) / 2) = 2 ∧
    (rasterize ((0 : ℚ), (0 : ℚ)) ((0 : ℚ), (3 : ℚ) / 2)).length = 1 := by
  refine ⟨by decide, by norm_num, ?_, by decide⟩
  norm_num [round_eq]

/-- Witness for C6 on the radius-2, 4-pin, uniform-field run of length 2. -/
theorem C6_no_reversal_witness :
    NoRev (pathPins [([(4, 2), (2, 2), (1, 2), (0, 2)], 3), ([(2, 0), (4, 2)], 2)]) :=
  C6_no_reversal positions4 4 2 (fun _ _ => 1)
    [([(4, 2), (2, 2), (1, 2), (0, 2)], 3), ([(2, 0), (4, 2)], 2)] (by decide)

/-- Witness for C7 on a one-iteration run from the uniform field. -/
theorem C7_monotone_witness :
    (SolveState.mk (erase (fun _ _ => 1) (rasterize (4, 2) (0, 2))) (0, 3)
      [(rasterize (4, 2) (0, 2), 3)]).field 2 2 ≤ (1 : ℕ) ∧
    0 ≤ (SolveState.mk (erase (fun _ _ => 1) (rasterize (4, 2) (0, 2))) (0, 3)
      [(rasterize (4, 2) (0, 2), 3)]).field 2 2 :=
  C7_monotone positions4 4 1 ⟨(fun _ _ => 1), (0, 0), []⟩
    (SolveState.mk (erase (fun _ _ => 1) (rasterize (4, 2) (0, 2))) (0, 3)
      [(rasterize (4, 2) (0, 2), 3)]) (by rfl) 2 2

/-- Witness for C8 at `num_pins = 4`, `max_chords = 2`. -/
theorem C8_termination_witness :
    (solveLoop positions4 4 2 ⟨(fun _ _ => 1), (0, 0), []⟩).map
      (fun st => st.threads.length) = some 2 ∧
    ((2 : ℕ) = 0 →
      solveLoop positions4 4 2 ⟨(fun _ _ => 1), (0, 0), []⟩ =
        some ⟨(fun _ _ => 1), (0, 0), []⟩) ∧
    ((∃ st, solveLoop positions4 4 2 ⟨(fun _ _ => 1), (0, 0), []⟩ = some st ∧
        st.threads.length < 2) ↔
      (∃ (t : SolveState) (b : Line),
        Reaches positions4 4 ⟨(fun _ _ => 1), (0, 0), []⟩ t ∧
        maxLast (candidates positions4 4 t.field t.prev_pins) = some b ∧
        b.dest_pin = t.prev_pins.2)) :=
  C8_termination positions4 4 2 (fun _ _ => 1) (by decide)

/-- Witness for C9 at the radius-2 layout, initial state, pin-3 candidate. -/
theorem C9_in_bounds_witness :
    (∀ r ∈ positions4,
      0 ≤ r.1 ∧ r.1 ≤ ((2 * 2 : ℕ) : ℚ) ∧ 0 ≤ r.2 ∧ r.2 ≤ ((2 * 2 : ℕ) : ℚ)) ∧
    ∀ q ∈ (Line.mk 3 (rasterize (4, 2) (0, 2)) 4).pixels,
      q.1 < 2 * 2 + 1 ∧ q.2 < 2 * 2 + 1 := by
  have hpos : ∀ r ∈ positions4,
      0 ≤ r.1 ∧ r.1 ≤ ((2 * 2 : ℕ) : ℚ) ∧ 0 ≤ r.2 ∧ r.2 ≤ ((2 * 2 : ℕ) : ℚ) := by
    intro r hr
    fin_cases hr <;> norm_num
  refine ⟨hpos, ?_⟩
  exact C9_in_bounds positions4 4 2 (fun _ _ => 1) hpos
    ⟨(fun _ _ => 1), (0, 0), []⟩ ⟨(fun _ _ => 1), (0, 0), []⟩ (Reaches.refl _)
    (Line.mk 3 (rasterize (4, 2) (0, 2)) 4) (by decide)

/-- Claim C10 counterexample: with `radius = 0` (the exact layout puts every
pin at `(0, 0)`) and `num_pins = 3`, the program does not fail at all — the
solve completes normally — contradicting "fails exactly when … radius = 0". -/
theorem C10_counterexample :
    generate_threads positions0 3 1 (fun _ _ => 5) = some [([], 2)] := by
  decide

/-- Claim C10 (amended): the code performs no input validation and raises no
`InvalidInput`: `radius = 0` completes normally, while `num_pins = 2` and
`num_pins = 1` hit the `max().unwrap()` panic inside the solve loop
(modelled as `none`) once the candidate set is empty. -/
theorem C10_no_validation :
    generate_threads positions0 3 1 (fun _ _ => 5) = some [([], 2)] ∧
    generate_threads positions2 2 3 (fun _ _ => 0) = none ∧
    generate_threads positions1 1 1 (fun _ _ => 0) = none := by
  decide

end ConcreteEvaluation

end Pipetone
